import Mathlib

/-!
Verification of the aniy animation engine core (timing algebra, frame
scheduling compiler, and polygon shape-correspondence/morph algorithm)
against its natural-language specification.

The Rust source stores times and coordinates as `f32`.  The embedding uses
exact rational arithmetic (`ℚ`) for all finite values; the IEEE special
values that the progress computation can produce (±infinity and NaN from a
division by zero, which Rust's `f32::clamp` propagates for NaN and maps to
the interval bounds for the infinities) are modelled explicitly by the
`FVal` type.  Opaque SVG payloads (the rendered output of evaluators and
objects) are modelled by integer tags, since no claim inspects them.
-/

set_option autoImplicit false

namespace Aniy

/-! ## Animation evaluators (animations.rs)

An evaluator is opaque except for reverse-wrapping: `ReverseAnimation`
holds an inner evaluator and, invoked with progress `p`, delegates to it
with progress `1 - p`.  All concrete evaluators are collapsed into an
opaque `base` tag; what the claims observe is the progress value that is
finally delegated to the underlying base evaluator. -/

/-- An animation evaluator: an opaque base evaluator (`NoAnimation`,
`FadeAnimation`, `PolygonDraw`, `PolygonMorph`, ... collapsed into a tag)
or a `ReverseAnimation` wrapper around another evaluator. -/
inductive Anim where
  | base (id : ℕ)
  | rev (inner : Anim)
deriving DecidableEq

/-- The progress value that reaches the innermost base evaluator when the
(possibly reverse-wrapped) evaluator is invoked with progress `p`:
`ReverseAnimation::animate` delegates to its inner evaluator with `1.0 - progress`. -/
def Anim.evalAt : Anim → ℚ → ℚ
  | .base _, p => p
  | .rev a, p => a.evalAt (1 - p)

/-- `AnimationContainer`: an evaluator together with its start and end time
in seconds (source fields `animation`, `start`, `end`). -/
structure AnimationContainer where
  animation : Anim
  start : ℚ
  «end» : ℚ
deriving DecidableEq

/-- `AnimationContainer::after`: keep this container's duration and start at
the other container's end (`duration = end - start; start = other.end;
end = start + duration`). -/
def AnimationContainer.after (self other : AnimationContainer) :
    AnimationContainer :=
  let duration := self.«end» - self.start
  let start := other.«end»
  { self with start := start, «end» := start + duration }

/-- `AnimationContainer::reverse`: wrap the evaluator in a
`ReverseAnimation`; `start` and `end` are unchanged. -/
def AnimationContainer.reverse (self : AnimationContainer) :
    AnimationContainer :=
  { animation := .rev self.animation
    start := self.start
    «end» := self.«end» }

/-! ## `f32` edge values for the progress computation

`AnimationContainer::animate` computes
`progress = (time - self.start) / (self.end - self.start)` and clamps it
with `f32::clamp(0.0, 1.0)`.  The subtraction of finite operands is finite,
but the division may hit a zero divisor: in IEEE `f32`, `0.0/0.0 = NaN`,
`x/0.0 = +inf` for `x > 0` and `-inf` for `x < 0`.  `f32::clamp` maps
`+inf` to the upper bound, `-inf` to the lower bound, and returns NaN
unchanged for NaN input. -/

/-- A finite rational, an infinity, or NaN; the possible values of the
progress computation in `AnimationContainer::animate`. -/
inductive FVal where
  | nan
  | pinf
  | ninf
  | fin (q : ℚ)
deriving DecidableEq

/-- IEEE division of two finite values (exact in the finite case). -/
def fdiv (a b : ℚ) : FVal :=
  if b = 0 then
    if a = 0 then .nan else if 0 < a then .pinf else .ninf
  else .fin (a / b)

/-- `f32::clamp(0.0, 1.0)`: NaN propagates, infinities hit the bounds,
finite values clamp. -/
def fclamp01 : FVal → FVal
  | .nan => .nan
  | .pinf => .fin 1
  | .ninf => .fin 0
  | .fin q => .fin (max 0 (min 1 q))

/-- `AnimationContainer::animate(time)`: the progress value handed to the
wrapped evaluator, `((time - start) / (end - start)).clamp(0.0, 1.0)`.
The evaluator's SVG output is opaque, so the model returns the delegated
progress itself. -/
def AnimationContainer.animate (self : AnimationContainer) (time : ℚ) :
    FVal :=
  fclamp01 (fdiv (time - self.start) (self.«end» - self.start))

/-! ## Frame scheduling (lib.rs) -/

/-- `frame_range(start, end, fps)`: with `frame_duration = 1/fps`, the
usize pair `((start / frame_duration).floor(), (end / frame_duration).ceil())`
describing the half-open index range `start_frame..end_frame`.  Rust's
float-to-`usize` cast saturates below at `0`, modelled by `Int.toNat`. -/
def frame_range (start «end» : ℚ) (fps : ℕ) : ℕ × ℕ :=
  let frame_duration : ℚ := 1 / (fps : ℚ)
  ((⌊start / frame_duration⌋).toNat, (⌈«end» / frame_duration⌉).toNat)

/-- Membership of a frame index in the half-open range returned by
`frame_range` (`start_frame..end_frame` iterates `start_frame ≤ i < end_frame`). -/
def in_frame_range (start «end» : ℚ) (fps : ℕ) (i : ℕ) : Prop :=
  (frame_range start «end» fps).1 ≤ i ∧ i < (frame_range start «end» fps).2

instance (start «end» : ℚ) (fps : ℕ) (i : ℕ) :
    Decidable (in_frame_range start «end» fps i) := by
  unfold in_frame_range; infer_instance

/-- `AnimatedObject`: a steady-state object (opaque render tag) with an
enter and an exit animation. -/
structure AnimatedObject where
  object : ℕ
  enter : AnimationContainer
  exit : AnimationContainer
deriving DecidableEq

/-- `Timeline`: static pre-rendered objects (opaque tags) and animated
objects. -/
structure Timeline where
  objects : List ℕ
  animations : List AnimatedObject

/-- Whether an animation pushed into a frame is an entity's enter or exit
handle. -/
inductive AnimKind where
  | enter
  | exit
deriving DecidableEq

/-- A frame: its timestamp, the pre-rendered objects on it, and the active
animations on it.  Animations are identified by (entity index, enter/exit),
since the pushed `Arc` payloads are opaque. -/
structure Frame where
  time : ℚ
  objects : List ℕ
  animations : List (ℕ × AnimKind)
deriving DecidableEq

/-- Push an animation handle onto every frame whose index lies in
`frame_range start end fps` (source: `frames[index].animations.push(..)`;
the claims only exercise in-bounds ranges, so the update is positional). -/
def push_animation (frames : List Frame) (start «end» : ℚ) (fps : ℕ)
    (tag : ℕ × AnimKind) : List Frame :=
  let r := frame_range start «end» fps
  frames.enum.map fun p =>
    if r.1 ≤ p.1 ∧ p.1 < r.2 then
      { p.2 with animations := p.2.animations ++ [tag] }
    else p.2

/-- Push a pre-rendered object onto every frame whose index lies in
`frame_range start end fps` (source: `frames[index].objects.push(..)`). -/
def push_object (frames : List Frame) (start «end» : ℚ) (fps : ℕ)
    (object : ℕ) : List Frame :=
  let r := frame_range start «end» fps
  frames.enum.map fun p =>
    if r.1 ≤ p.1 ∧ p.1 < r.2 then
      { p.2 with objects := p.2.objects ++ [object] }
    else p.2

/-- `max_by(..).unwrap_or(0.0)`: the maximum of the list, or `0` when it is
empty. -/
def list_max_or : List ℚ → ℚ
  | [] => 0
  | x :: xs => xs.foldl max x

/-- `Timeline::calc_frames(fps)`: `end_time` is the largest exit end (or 0),
`frame_count = ceil(end_time * fps) + 10`; each frame `i` gets time
`i * (1/fps)` and all static objects; then every animated object registers
its enter handle on the frames of `[enter.start, enter.end)`, its exit
handle on the frames of `[exit.start, exit.end)`, and its rendered steady
object on the frames of `[enter.end, exit.start)`. -/
def calc_frames (tl : Timeline) (fps : ℕ) : List Frame :=
  let end_time := list_max_or (tl.animations.map fun a => a.exit.«end»)
  let frame_count := (⌈end_time * (fps : ℚ)⌉).toNat + 10
  let frame_duration : ℚ := 1 / (fps : ℚ)
  let init : List Frame := (List.range frame_count).map fun i =>
    { time := (i : ℚ) * frame_duration
      objects := tl.objects
      animations := [] }
  tl.animations.enum.foldl
    (fun frames p =>
      let ao := p.2
      let frames := push_animation frames ao.enter.start ao.enter.«end» fps
        (p.1, AnimKind.enter)
      let frames := push_animation frames ao.exit.start ao.exit.«end» fps
        (p.1, AnimKind.exit)
      push_object frames ao.enter.«end» ao.exit.start fps ao.object)
    init

/-! ## Shape correspondence and morphing (animations.rs)

Coordinates are exact rationals.  The source compares Euclidean distances
(`sqrt` applied to a sum of squares) only to pick minima; `sqrt` is
strictly monotone, so the embedding compares squared distances. -/

/-- A 2D point, source `type Point = (f32, f32)`. -/
abbrev Point : Type := ℚ × ℚ

/-- Squared Euclidean distance (the source's `distance` is its square
root, used only inside order comparisons). -/
def dist_sq (a b : Point) : ℚ :=
  (a.1 - b.1) * (a.1 - b.1) + (a.2 - b.2) * (a.2 - b.2)

/-- `translate_point`: shift a point by `(x, y)`. -/
def translate_point (point : Point) (x y : ℚ) : Point :=
  (point.1 + x, point.2 + y)

/-- `translate_points`: shift every point by `(x, y)`. -/
def translate_points (points : List Point) (x y : ℚ) : List Point :=
  points.map fun point => translate_point point x y

/-- `top_left`: componentwise minimum.  The source folds `min` from
`(f32::INFINITY, f32::INFINITY)`, which on a nonempty list is the fold
below; on `[]` its infinite sentinel is only ever passed to
`translate_points []`, which ignores it, so the value here is arbitrary. -/
def top_left : List Point → Point
  | [] => (0, 0)
  | p :: ps => ps.foldl (fun acc q => (min acc.1 q.1, min acc.2 q.2)) p

/-- `Iterator::min_by` keyed by `f`: the first element attaining the
minimal key (Rust keeps the first of equally-minimal elements); `none` on
an empty iterator, whose subsequent `unwrap` is the source's panic. -/
def min_by_val {α : Type} (f : α → ℚ) : List α → Option α
  | [] => none
  | x :: xs =>
    some (xs.foldl (fun best y => if f y < f best then y else best) x)

/-- `closest_point`: index and value of the point of `segment` closest to
`point`; `none` when `segment` is empty (the source unwraps and panics). -/
def closest_point (point : Point) (segment : List Point) :
    Option (ℕ × Point) :=
  min_by_val (fun ip => dist_sq point ip.2) segment.enum

/-- `cast_to_line(line_a, line_b, point)`: the point of the segment from
`line_a` to `line_b` closest to `point`, with its (squared) distance to
`point`.  The source translates `line_a` to the origin, rotates by
`-atan2` of the direction so the segment lies on the x-axis, clamps the
rotated x-coordinate to `[0, |b|]`, zeroes y, and rotates/translates
back; in exact arithmetic that equals the clamped scalar projection
`t = clamp((p-a)·(b-a) / |b-a|², 0, 1)` mapped to `a + t·(b-a)`.  For a
degenerate segment (`line_b = line_a`) the source's `atan2(0,0) = 0` and
clamp to `[0,0]` yield `line_a`, matched here by `t = 0` (division by the
zero squared length gives `0` in `ℚ`). -/
def cast_to_line (line_a line_b point : Point) : Point × ℚ :=
  let d : Point := (line_b.1 - line_a.1, line_b.2 - line_a.2)
  let q : Point := (point.1 - line_a.1, point.2 - line_a.2)
  let t : ℚ :=
    max 0 (min 1 ((q.1 * d.1 + q.2 * d.2) / (d.1 * d.1 + d.2 * d.2)))
  let fallen_point : Point := (line_a.1 + t * d.1, line_a.2 + t * d.2)
  (fallen_point, dist_sq point fallen_point)

/-- The greedy anchor loop of `create_missing_points`: for each short
point in order, claim its closest pool point (the pool holds the
translated longer points with their original indices), record
`(claimed original index, short point)` and remove the claimed entry from
the pool.  Returns the anchors (`static_points`) and the leftover pool;
`none` models the `closest_point` unwrap panic on an empty pool. -/
def greedy_static : List Point → List (ℕ × Point) →
    Option (List (ℕ × Point) × List (ℕ × Point))
  | [], pool => some ([], pool)
  | point :: rest, pool =>
    match closest_point point (pool.map Prod.snd) with
    | none => none
    | some (i, _) =>
      match greedy_static rest (pool.eraseIdx i) with
      | none => none
      | some (statics, final_pool) =>
        some (((pool.getD i (0, ((0 : ℚ), (0 : ℚ)))).1, point) :: statics,
          final_pool)

/-- The assignment loop of `create_missing_points`: each leftover longer
point (with original index `li`) is projected onto every short edge with
`cast_to_line`; the edge of minimal projection distance (first on ties)
receives `(li, projected point)` in its bucket.  `none` models the
`min_by(..).unwrap()` panic when there are no edges. -/
def assign_segments (point_pairs : List (Point × Point)) :
    List (ℕ × Point) → List (List (ℕ × Point)) →
    Option (List (List (ℕ × Point)))
  | [], segments => some segments
  | (li, point) :: rest, segments =>
    match min_by_val (fun x => x.2.2)
        ((point_pairs.map fun ab => cast_to_line ab.1 ab.2 point).enum) with
    | none => none
    | some (i, c) =>
      assign_segments point_pairs rest
        (segments.set i (segments.getD i [] ++ [(li, c.1)]))

/-- `create_missing_points(short, longer)`: translate both polygons so
their bounding-box top-left corner is the origin, greedily anchor each
short point to its nearest longer point, assign the leftover longer
points to short edges by clamped projection, then walk the edges in order
emitting the anchor followed by its bucket.  The walked pairs rewrite
`longer` (original points at the recorded indices) and `short` (walked
points translated back).  The source interleaves `static_points[i]` with
`segments[i]` while enumerating `segments`; both lists have one entry per
short point, so that interleaving is the zip below.  `none` models the
source's panics (empty short or empty longer polygon). -/
def create_missing_points (short longer : List Point) :
    Option (List Point × List Point) :=
  let short_first := top_left short
  let short_trans :=
    translate_points short (-short_first.1) (-short_first.2)
  let long_first := top_left longer
  let long_trans :=
    (translate_points longer (-long_first.1) (-long_first.2)).enum
  match greedy_static short_trans long_trans with
  | none => none
  | some (static_points, remaining) =>
    let point_pairs := (List.range short_trans.length).map fun i =>
      (short_trans.getD i (0, 0),
       short_trans.getD ((i + 1) % short_trans.length) (0, 0))
    match assign_segments point_pairs remaining
        (List.replicate short_trans.length []) with
    | none => none
    | some segments =>
      let points :=
        ((static_points.zip segments).map fun p => p.1 :: p.2).flatten
      some
        (translate_points (points.map Prod.snd) short_first.1 short_first.2,
         points.map fun ip => longer.getD ip.1 (0, 0))

/-- `PolygonMorph`: the two equal-length point sequences built by the
constructor.  Fill/outline colors and the polygon handles kept by the
source do not bear on the point-sequence claims and are omitted. -/
structure PolygonMorph where
  start_points : List Point
  end_points : List Point
deriving DecidableEq

/-- `PolygonMorph::new`: clone both point lists; when the counts differ,
`create_missing_points` rewrites both in place with the shorter list as
its first argument; equal counts skip the correspondence entirely. -/
def polygon_morph_new (start_polygon end_polygon : List Point) :
    Option PolygonMorph :=
  match compare start_polygon.length end_polygon.length with
  | .lt =>
    match create_missing_points start_polygon end_polygon with
    | none => none
    | some (s, l) => some { start_points := s, end_points := l }
  | .gt =>
    match create_missing_points end_polygon start_polygon with
    | none => none
    | some (s, l) => some { start_points := l, end_points := s }
  | .eq =>
    some { start_points := start_polygon, end_points := end_polygon }

/-- `PolygonMorph::animate`: pointwise `start + (end - start) * progress`
over the zipped sequences (the color morphing applies to the omitted
color fields and does not affect the emitted point sequence). -/
def morph_animate (m : PolygonMorph) (progress : ℚ) : List Point :=
  (m.start_points.zip m.end_points).map fun se =>
    (se.1.1 + (se.2.1 - se.1.1) * progress,
     se.1.2 + (se.2.2 - se.1.2) * progress)

/-- Linear interpolation from `a` to `b` (the segment-interpolation shape
`a + t·(b - a)` shared by `cast_to_line` and the morph evaluator). -/
def lerp_point (a b : Point) (t : ℚ) : Point :=
  (a.1 + t * (b.1 - a.1), a.2 + t * (b.2 - a.2))

/-- `q` lies on edge `i` of the cyclic polygon `ps`: on the segment from
`ps[i]` to `ps[(i + 1) % ps.length]`. -/
def on_edge (ps : List Point) (i : ℕ) (q : Point) : Prop :=
  ∃ t : ℚ, 0 ≤ t ∧ t ≤ 1 ∧
    q = lerp_point (ps.getD i (0, 0))
      (ps.getD ((i + 1) % ps.length) (0, 0)) t

/-! ## Helper lemmas -/

/-- `frame_range` divides by the frame duration `1 / fps`; in `ℚ` that is
multiplication by `fps`. -/
theorem frame_range_eq_mul (s e : ℚ) (fps : ℕ) :
    frame_range s e fps =
      ((⌊s * (fps : ℚ)⌋).toNat, (⌈e * (fps : ℚ)⌉).toNat) := by
  simp only [frame_range, one_div, div_inv_eq_mul]

/-! ## Claim theorems -/

/-- C8: for every animation container `a`, `a.reverse().reverse()` has the
same endpoints as `a` and, at every progress value `p` (in particular at
0, 1/4, 1/2, 3/4, 1), delegates to the underlying evaluator exactly the
progress that `a` delegates. -/
theorem C8_reverse_reverse (a : AnimationContainer) (p : ℚ) :
    a.reverse.reverse.start = a.start ∧
    a.reverse.reverse.«end» = a.«end» ∧
    a.reverse.reverse.animation.evalAt p = a.animation.evalAt p := by
  refine ⟨rfl, rfl, ?_⟩
  simp [AnimationContainer.reverse, Anim.evalAt, sub_sub_cancel]

/-- C9: `b.after(&a)` preserves `b`'s duration and starts at `a`'s end:
the result is `[a.end, a.end + (b.end - b.start))`; concretely with
`a = [0,2)` and `b = [0,1)` the result is `[2,3)`. -/
theorem C9_after_chaining (a b : AnimationContainer) :
    (b.after a).start = a.«end» ∧
    (b.after a).«end» = a.«end» + (b.«end» - b.start) ∧
    (AnimationContainer.after ⟨.base 1, 0, 1⟩ ⟨.base 0, 0, 2⟩).start = 2 ∧
    (AnimationContainer.after ⟨.base 1, 0, 1⟩ ⟨.base 0, 0, 2⟩).«end» = 3 := by
  refine ⟨rfl, rfl, rfl, ?_⟩
  show (2 : ℚ) + (1 - 0) = 3
  norm_num

/-- C6: compiling a timeline with fps = 1 and one animated entity (enter
window `[0,1)`, exit window `[2,3)`, steady window `[1,2)`) yields 13
frames (3 content frames plus the fixed pad of 10), frame `i` at time
`i`; the entity's enter handle is active exactly on frame 0 (time 0), its
rendered steady object is present exactly on frame 1 (time 1), its exit
handle is active exactly on frame 2 (time 2), and the pad frames carry
nothing. -/
theorem C6_single_entity_schedule :
    calc_frames ⟨[], [⟨7, ⟨.base 0, 0, 1⟩, ⟨.base 1, 2, 3⟩⟩]⟩ 1 =
      [⟨0, [], [(0, .enter)]⟩, ⟨1, [7], []⟩, ⟨2, [], [(0, .exit)]⟩,
       ⟨3, [], []⟩, ⟨4, [], []⟩, ⟨5, [], []⟩, ⟨6, [], []⟩, ⟨7, [], []⟩,
       ⟨8, [], []⟩, ⟨9, [], []⟩, ⟨10, [], []⟩, ⟨11, [], []⟩,
       ⟨12, [], []⟩] := by
  have h3 : ⌈(3 : ℚ) * ((1 : ℕ) : ℚ)⌉ = 3 := by push_cast; norm_num
  norm_num [calc_frames, list_max_or, push_animation, push_object,
    frame_range, List.enum, List.enumFrom, h3,
    List.range_eq_range', List.range'_succ,
    Int.floor_eq_iff, Int.ceil_eq_iff]

/-- C2 (evaluating the code at the failing input): the zero-duration
container `start = end = 1/2` at fps = 1 has the single-frame window
`{0}` (frame time 0), and on that frame the progress computation divides
by zero: `(0 - 1/2) / 0 = -inf`, which `clamp` maps to 0, not to the 1
the specification requires; invoked exactly at its start time the
computation is `0/0 = NaN`, which `clamp` propagates. -/
theorem C2_zero_duration_progress :
    in_frame_range (1/2) (1/2) 1 0 ∧
    AnimationContainer.animate ⟨.base 0, 1/2, 1/2⟩ 0 = .fin 0 ∧
    AnimationContainer.animate ⟨.base 0, 1/2, 1/2⟩ (1/2) = .nan ∧
    FVal.fin 0 ≠ FVal.fin 1 := by
  refine ⟨?_, ?_, ?_, by norm_num⟩
  · norm_num [in_frame_range, frame_range, Int.floor_eq_iff,
      Int.ceil_eq_iff]
  · norm_num [AnimationContainer.animate, fdiv, fclamp01]
  · norm_num [AnimationContainer.animate, fdiv, fclamp01]

/-- C3 (evaluating the code at the failing input): morphing with an empty
polygon on either side does not produce an error value; the source
panics — `create_missing_points` unwraps `min_by` over the empty iterator
of short-polygon edges — modelled as `none`.  No `DegeneratePolygon`
error type exists anywhere in the source. -/
theorem C3_empty_polygon_panics :
    create_missing_points [] [((0 : ℚ), (0 : ℚ))] = none ∧
    polygon_morph_new [] [((0 : ℚ), (0 : ℚ))] = none ∧
    polygon_morph_new [((0 : ℚ), (0 : ℚ))] [] = none := by
  have h01 : compare (0 : ℕ) 1 = Ordering.lt := by decide
  have h10 : compare (1 : ℕ) 0 = Ordering.gt := by decide
  refine ⟨rfl, ?_, ?_⟩ <;>
    simp [polygon_morph_new, create_missing_points, greedy_static,
      assign_segments, closest_point, min_by_val, translate_points,
      translate_point, top_left, List.enum, List.enumFrom, h01, h10]

/-- C1 counterexample: with fps = 1 and the window `[1/2, 3/2)` (so
`s < e`), frame index 0 lies in the computed range (its first bound is
`floor(0.5) = 0`) although the sampled time `0/1 = 0` does not satisfy
`1/2 ≤ 0`. -/
theorem C1_cex_frame_before_start :
    (1 : ℚ)/2 < 3/2 ∧ 0 < 1 ∧
    in_frame_range (1/2) (3/2) 1 0 ∧
    ¬ ((1 : ℚ)/2 ≤ (0 : ℚ)/1) := by
  refine ⟨by norm_num, by norm_num, ?_, by norm_num⟩
  norm_num [in_frame_range, frame_range, Int.floor_eq_iff,
    Int.ceil_eq_iff]

/-- C10 counterexample: with fps = 1, the malformed window with
`start = 3/2 > end = 6/5` yields the range `[1, 2)`, which is not empty:
frame index 1 lies in it. -/
theorem C10_cex_reversed_window_nonempty :
    (6 : ℚ)/5 < 3/2 ∧ in_frame_range (3/2) (6/5) 1 1 := by
  have hc : ⌈(6 : ℚ)/5⌉ = 2 := by
    rw [Int.ceil_eq_iff]
    norm_num
  refine ⟨by norm_num, ?_⟩
  norm_num [in_frame_range, frame_range, Int.floor_eq_iff, hc]

/-- C7 counterexample: the container with `start = 1`, `end = 0` (so
`end ≠ start`) evaluated at time 1/2 — a time before its start —
delegates progress 1/2, which is neither 0.0 nor 1.0 (it is, however,
inside `[0,1]`). -/
theorem C7_cex_reversed_interval :
    ((1 : ℚ)/2 < 1) ∧
    AnimationContainer.animate ⟨.base 0, 1, 0⟩ (1/2) = .fin (1/2) ∧
    FVal.fin ((1 : ℚ)/2) ≠ .fin 0 ∧
    FVal.fin ((1 : ℚ)/2) ≠ .fin 1 := by
  refine ⟨by norm_num, ?_, by norm_num, by norm_num⟩
  norm_num [AnimationContainer.animate, fdiv, fclamp01]

/-- C4 counterexample: morphing the 3-point polygon
`[(0,0),(10,0),(0,10)]` into the 4-point polygon
`[(10,0),(0,0),(0,10),(5,5)]` and interpolating at progress 1 emits
`[(0,0),(10,0),(5,5),(0,10)]` — the longer polygon's points in the order
chosen by the correspondence, not the longer polygon's point sequence. -/
theorem C4_cex_order_not_preserved :
    (polygon_morph_new [((0 : ℚ), (0 : ℚ)), (10, 0), (0, 10)]
        [(10, 0), (0, 0), (0, 10), (5, 5)]).map
      (fun m => morph_animate m 1) =
      some [(0, 0), (10, 0), (5, 5), (0, 10)] ∧
    [((0 : ℚ), (0 : ℚ)), (10, 0), (5, 5), (0, 10)] ≠
      [(10, 0), (0, 0), (0, 10), (5, 5)] := by
  have hc : compare (3 : ℕ) 4 = Ordering.lt := by decide
  refine ⟨?_, by norm_num⟩
  norm_num [polygon_morph_new, create_missing_points, greedy_static,
    assign_segments, closest_point, min_by_val, cast_to_line, dist_sq,
    top_left, translate_points, translate_point, morph_animate,
    List.enum, List.enumFrom, List.getD, List.eraseIdx,
    List.range_eq_range', List.range'_succ, hc, List.replicate,
    List.set, List.zip, List.zipWith, List.flatten, Option.getD]

/-- C1 (amended): for every fps > 0 and window `[s, e)` with `s < e`, the
computed frame range contains every frame index `i` whose sampled time
`i/fps` lies in `[s, e)`; conversely every index `i` in the range
satisfies `i/fps < e` and `s < (i+1)/fps` — its sampled time may
undershoot `s`, but by less than one frame (the `floor` on the start
bound admits one leading frame whose time precedes `s`, as the
counterexample exhibits). -/
theorem C1_frame_range_window (fps : ℕ) (s e : ℚ) (hf : 0 < fps)
    (_hse : s < e) :
    (∀ i : ℕ, s ≤ (i : ℚ) / (fps : ℚ) → (i : ℚ) / (fps : ℚ) < e →
      in_frame_range s e fps i) ∧
    (∀ i : ℕ, in_frame_range s e fps i →
      (i : ℚ) / (fps : ℚ) < e ∧ s < ((i : ℚ) + 1) / (fps : ℚ)) := by
  have hF : (0 : ℚ) < (fps : ℚ) := by exact_mod_cast hf
  constructor
  · intro i h1 h2
    unfold in_frame_range
    rw [frame_range_eq_mul]
    constructor
    · have hs : s * (fps : ℚ) ≤ (i : ℚ) := (le_div_iff₀ hF).mp h1
      have hfl : ⌊s * (fps : ℚ)⌋ ≤ (i : ℤ) := by
        calc ⌊s * (fps : ℚ)⌋ ≤ ⌊((i : ℤ) : ℚ)⌋ :=
              Int.floor_le_floor (by push_cast; exact hs)
        _ = (i : ℤ) := Int.floor_intCast i
      exact Int.toNat_le.mpr hfl
    · have he : (i : ℚ) < e * (fps : ℚ) := (div_lt_iff₀ hF).mp h2
      exact Int.lt_toNat.mpr (Int.lt_ceil.mpr (by push_cast; exact he))
  · intro i hi
    unfold in_frame_range at hi
    rw [frame_range_eq_mul] at hi
    obtain ⟨h1, h2⟩ := hi
    constructor
    · have hz : ((i : ℤ) : ℚ) < e * (fps : ℚ) :=
        Int.lt_ceil.mp (Int.lt_toNat.mp h2)
      exact (div_lt_iff₀ hF).mpr (by push_cast at hz; exact hz)
    · have hfl : ⌊s * (fps : ℚ)⌋ ≤ (i : ℤ) := Int.toNat_le.mp h1
      have hlt : s * (fps : ℚ) < (i : ℚ) + 1 := by
        calc s * (fps : ℚ) < ⌊s * (fps : ℚ)⌋ + 1 :=
              Int.lt_floor_add_one _
        _ ≤ (i : ℚ) + 1 := by
              have : ((⌊s * (fps : ℚ)⌋ : ℚ)) ≤ (i : ℚ) := by
                exact_mod_cast hfl
              linarith
      exact (lt_div_iff₀ hF).mpr hlt

/-- C1 witness: at fps = 1, window `[0, 1)`, frame index 0 (sampled time
0) lies in the computed range. -/
theorem C1_frame_range_window_witness : in_frame_range 0 1 1 0 :=
  (C1_frame_range_window 1 0 1 (by norm_num) (by norm_num)).1 0
    (by norm_num) (by norm_num)

/-- C7 (amended): whenever `end ≠ start`, the progress that
`AnimationContainer::animate` delegates to the wrapped evaluator is a
finite value clamped into `[0, 1]`; when additionally `start < end`
(a well-formed window), any time at or before `start` delegates exactly
0.0 and any time at or after `end` delegates exactly 1.0.  (For an
ill-formed window with `end < start` the delegated value is still inside
`[0, 1]`, but a time outside the window can delegate an interior value,
as the counterexample exhibits.) -/
theorem C7_progress_clamped (c : AnimationContainer) (t : ℚ)
    (h : c.«end» ≠ c.start) :
    (∃ q, c.animate t = .fin q ∧ 0 ≤ q ∧ q ≤ 1) ∧
    (c.start < c.«end» →
      (t ≤ c.start → c.animate t = .fin 0) ∧
      (c.«end» ≤ t → c.animate t = .fin 1)) := by
  have hd : c.«end» - c.start ≠ 0 := sub_ne_zero.mpr h
  have hanim : c.animate t =
      .fin (max 0 (min 1 ((t - c.start) / (c.«end» - c.start)))) := by
    simp [AnimationContainer.animate, fdiv, hd, fclamp01]
  refine ⟨⟨_, hanim, le_max_left _ _,
    max_le zero_le_one (min_le_left _ _)⟩, ?_⟩
  intro hlt
  have hpos : (0 : ℚ) < c.«end» - c.start := sub_pos.mpr hlt
  constructor
  · intro ht
    have hq : (t - c.start) / (c.«end» - c.start) ≤ 0 :=
      div_nonpos_of_nonpos_of_nonneg (by linarith) hpos.le
    rw [hanim, min_eq_right (hq.trans zero_le_one), max_eq_left hq]
  · intro ht
    have hq : 1 ≤ (t - c.start) / (c.«end» - c.start) :=
      (one_le_div hpos).mpr (by linarith)
    rw [hanim, min_eq_left hq, max_eq_right zero_le_one]

/-- C7 witness: the container `[0, 1)` evaluated at time 5 (after its
end) delegates a clamped finite progress, namely exactly 1.0. -/
theorem C7_progress_clamped_witness :
    (∃ q, AnimationContainer.animate ⟨.base 0, 0, 1⟩ 5 = .fin q ∧
      0 ≤ q ∧ q ≤ 1) ∧
    ((0 : ℚ) < 1 →
      ((5 : ℚ) ≤ 0 →
        AnimationContainer.animate ⟨.base 0, 0, 1⟩ 5 = .fin 0) ∧
      ((1 : ℚ) ≤ 5 →
        AnimationContainer.animate ⟨.base 0, 0, 1⟩ 5 = .fin 1)) :=
  C7_progress_clamped ⟨.base 0, 0, 1⟩ 5 (by norm_num)

/-- C10 (amended): `frame_range` is total on all rational inputs and
returns a possibly-empty half-open index range; a negative start
saturates to first frame 0 (the float-to-usize cast clamps below at
zero), and a window beginning before time 0 but ending after it
activates frame 0; the range is empty exactly when its saturated upper
bound is at most its saturated lower bound — a window with
`start > end` therefore touches no frame whenever
`ceil(end·fps) ≤ floor(start·fps)`, but can straddle one frame
otherwise, as the counterexample exhibits. -/
theorem C10_frame_range_total (s e : ℚ) (fps : ℕ) (hf : 0 < fps) :
    (s < 0 → (frame_range s e fps).1 = 0) ∧
    (s < 0 → 0 < e → in_frame_range s e fps 0) ∧
    ((¬ ∃ i, in_frame_range s e fps i) ↔
      (frame_range s e fps).2 ≤ (frame_range s e fps).1) := by
  have hF : (0 : ℚ) < (fps : ℚ) := by exact_mod_cast hf
  have hfst : s < 0 → (frame_range s e fps).1 = 0 := by
    intro hs
    have hneg : s * (fps : ℚ) < 0 := mul_neg_of_neg_of_pos hs hF
    have h1 : ⌊s * (fps : ℚ)⌋ < 0 := by
      rw [Int.floor_lt]
      push_cast
      exact hneg
    rw [frame_range_eq_mul]
    exact Int.toNat_of_nonpos h1.le
  refine ⟨hfst, ?_, ?_⟩
  · intro hs he
    refine ⟨by rw [hfst hs], ?_⟩
    rw [frame_range_eq_mul]
    exact Int.lt_toNat.mpr (Int.ceil_pos.mpr (mul_pos he hF))
  · constructor
    · intro hne
      by_contra hlt
      push_neg at hlt
      exact hne ⟨(frame_range s e fps).1, le_refl _, hlt⟩
    · rintro hba ⟨i, h1, h2⟩
      omega

/-- C10 witness: at fps = 1, the window `[-1, 1)` (delayed before time
zero) has saturated first frame 0, activates frame 0, and is empty iff
its bounds are collapsed. -/
theorem C10_frame_range_total_witness :
    ((-1 : ℚ) < 0 → (frame_range (-1) 1 1).1 = 0) ∧
    ((-1 : ℚ) < 0 → (0 : ℚ) < 1 → in_frame_range (-1) 1 1 0) ∧
    ((¬ ∃ i, in_frame_range (-1) 1 1 i) ↔
      (frame_range (-1) 1 1).2 ≤ (frame_range (-1) 1 1).1) :=
  C10_frame_range_total (-1) 1 1 (by norm_num)

/-! ## Lemmas about the correspondence construction -/

/-- The running minimum of `min_by_val`'s fold is either the accumulator
or one of the folded elements. -/
theorem foldl_min_choice {α : Type} (f : α → ℚ) :
    ∀ (xs : List α) (acc : α),
      xs.foldl (fun best y => if f y < f best then y else best) acc = acc ∨
      xs.foldl (fun best y => if f y < f best then y else best) acc ∈ xs := by
  intro xs
  induction xs with
  | nil => intro acc; exact Or.inl rfl
  | cons x xs ih =>
    intro acc
    simp only [List.foldl_cons]
    rcases ih (if f x < f acc then x else acc) with h | h
    · by_cases hc : f x < f acc
      · right
        rw [h, if_pos hc]
        exact List.mem_cons_self x xs
      · left
        rw [h, if_neg hc]
    · right
      exact List.mem_cons_of_mem _ h

/-- `min_by_val` returns an element of its input list. -/
theorem min_by_val_mem {α : Type} {f : α → ℚ} :
    ∀ {l : List α} {x : α}, min_by_val f l = some x → x ∈ l := by
  intro l x h
  cases l with
  | nil => cases h
  | cons a as =>
    simp only [min_by_val, Option.some.injEq] at h
    subst h
    rcases foldl_min_choice f as a with h2 | h2
    · rw [h2]
      exact List.mem_cons_self a as
    · exact List.mem_cons_of_mem a h2

/-- An element of `l.enum` is an in-range index paired with the list
entry at that index. -/
theorem mem_enum_getD {α : Type} {x : ℕ × α} {l : List α} (d : α)
    (h : x ∈ l.enum) : x.1 < l.length ∧ l.getD x.1 d = x.2 := by
  rw [List.mem_enum_iff_getElem?] at h
  have hlt : x.1 < l.length := by
    by_contra hge
    rw [List.getElem?_eq_none (by omega)] at h
    cases h
  refine ⟨hlt, ?_⟩
  rw [List.getD_eq_getElem?_getD, h]
  rfl

/-- Moving the entry at an in-range index to the front is a permutation. -/
theorem getD_cons_eraseIdx_perm {α : Type} (d : α) :
    ∀ (l : List α) (i : ℕ), i < l.length →
      (l.getD i d :: l.eraseIdx i).Perm l := by
  intro l
  induction l with
  | nil => intro i h; simp at h
  | cons a t ih =>
    intro i h
    cases i with
    | zero => simp
    | succ i =>
      simp only [List.getD_cons_succ, List.eraseIdx_cons_succ]
      exact (List.Perm.swap a (t.getD i d) (t.eraseIdx i)).trans
        ((ih i (by simpa using h)).cons a)

/-- `map` commutes with `eraseIdx`. -/
theorem map_eraseIdx {α β : Type} (f : α → β) :
    ∀ (l : List α) (i : ℕ), (l.eraseIdx i).map f = (l.map f).eraseIdx i := by
  intro l
  induction l with
  | nil => intro i; simp
  | cons a t ih =>
    intro i
    cases i with
    | zero => simp
    | succ i => simp [ih i]

/-- `getD` of a mapped list at an in-range index. -/
theorem getD_map_of_lt {α β : Type} (f : α → β) (l : List α) (i : ℕ)
    (h : i < l.length) (d : β) (d' : α) :
    (l.map f).getD i d = f (l.getD i d') := by
  rw [List.getD_eq_getElem?_getD, List.getD_eq_getElem?_getD,
    List.getElem?_eq_getElem (by simpa using h),
    List.getElem?_eq_getElem h]
  simp

/-- Appending one element to bucket `i` of a bucket list prepends it to
the flattening, up to permutation. -/
theorem flatten_set_append_perm {α : Type} :
    ∀ (segs : List (List α)) (i : ℕ) (x : α), i < segs.length →
      ((segs.set i (segs.getD i [] ++ [x])).flatten).Perm
        (x :: segs.flatten) := by
  intro segs
  induction segs with
  | nil => intro i x h; simp at h
  | cons s t ih =>
    intro i x h
    cases i with
    | zero =>
      simp only [List.set_cons_zero, List.getD_cons_zero,
        List.flatten_cons]
      exact (List.perm_append_singleton x s).append_right t.flatten
    | succ i =>
      simp only [List.set_cons_succ, List.getD_cons_succ,
        List.flatten_cons]
      exact ((ih i x (by simpa using h)).append_left s).trans
        List.perm_middle

/-- Looking every index of `range` up in the list reproduces the list. -/
theorem range_map_getD {α : Type} :
    ∀ (l : List α) (d : α),
      (List.range l.length).map (fun i => l.getD i d) = l := by
  intro l
  induction l with
  | nil => intro d; simp
  | cons a t ih =>
    intro d
    simp only [List.length_cons, List.range_succ_eq_map, List.map_cons,
      List.getD_cons_zero, List.map_map]
    refine congrArg (a :: ·) ?_
    calc (List.range t.length).map
          ((fun i => (a :: t).getD i d) ∘ Nat.succ)
        = (List.range t.length).map (fun i => t.getD i d) := by
          simp [Function.comp]
      _ = t := ih d

/-- Flattening replicated empty buckets gives the empty list. -/
theorem flatten_replicate_nil {α : Type} (n : ℕ) :
    (List.replicate n ([] : List α)).flatten = [] := by
  induction n with
  | zero => simp
  | succ n ih => simp [List.replicate_succ, ih]

/-- Flattening the interleaving of heads with equally many buckets is a
permutation of the heads followed by the flattened buckets. -/
theorem zip_cons_flatten_perm {α : Type} :
    ∀ (as : List α) (bs : List (List α)), as.length = bs.length →
      ((((as.zip bs).map fun p => p.1 :: p.2).flatten)).Perm
        (as ++ bs.flatten) := by
  intro as
  induction as with
  | nil =>
    intro bs h
    cases bs with
    | nil => simp
    | cons b bs => simp at h
  | cons a as ih =>
    intro bs h
    cases bs with
    | nil => simp at h
    | cons b bs =>
      simp only [List.zip_cons_cons, List.map_cons, List.flatten_cons,
        List.cons_append]
      refine List.Perm.cons a ?_
      refine ((ih bs (by simpa using h)).append_left b).trans ?_
      rw [← List.append_assoc b as bs.flatten,
        ← List.append_assoc as b bs.flatten]
      exact List.perm_append_comm.append_right _

/-- Flattening singleton blocks reproduces the list. -/
theorem flatten_map_singleton {α : Type} (l : List α) :
    (l.map fun x => [x]).flatten = l := by
  induction l with
  | nil => simp
  | cons a t ih => simp [ih]

/-- Translating back after translating away is the identity. -/
theorem translate_point_cancel (p : Point) (x y : ℚ) :
    translate_point (translate_point p (-x) (-y)) x y = p := by
  simp only [translate_point]
  refine Prod.ext ?_ ?_ <;> simp

/-- `translate_point` commutes with segment interpolation. -/
theorem translate_lerp (a b : Point) (t x y : ℚ) :
    translate_point (lerp_point a b t) x y =
      lerp_point (translate_point a x y) (translate_point b x y) t := by
  simp only [translate_point, lerp_point]
  refine Prod.ext ?_ ?_ <;> (simp only; ring)

/-- The point returned by `cast_to_line` lies on the segment. -/
theorem cast_to_line_mem_segment (a b p : Point) :
    ∃ t : ℚ, 0 ≤ t ∧ t ≤ 1 ∧ (cast_to_line a b p).1 = lerp_point a b t := by
  refine ⟨max 0 (min 1 (((p.1 - a.1) * (b.1 - a.1) +
      (p.2 - a.2) * (b.2 - a.2)) /
      ((b.1 - a.1) * (b.1 - a.1) + (b.2 - a.2) * (b.2 - a.2)))),
    le_max_left _ _, max_le zero_le_one (min_le_left _ _), rfl⟩

/-- Interpolating zipped sequences at progress 0 returns the first
sequence (when the lengths agree). -/
theorem zip_lerp_zero :
    ∀ (a b : List Point), a.length = b.length →
      (a.zip b).map (fun se =>
        (se.1.1 + (se.2.1 - se.1.1) * (0 : ℚ),
         se.1.2 + (se.2.2 - se.1.2) * (0 : ℚ))) = a := by
  intro a
  induction a with
  | nil => intro b h; simp
  | cons x xs ih =>
    intro b h
    cases b with
    | nil => simp at h
    | cons y ys =>
      simp only [List.zip_cons_cons, List.map_cons]
      rw [ih ys (by simpa using h)]
      refine congrArg (· :: xs) (Prod.ext ?_ ?_) <;> (simp only; ring)

/-- Interpolating zipped sequences at progress 1 returns the second
sequence (when the lengths agree). -/
theorem zip_lerp_one :
    ∀ (a b : List Point), a.length = b.length →
      (a.zip b).map (fun se =>
        (se.1.1 + (se.2.1 - se.1.1) * (1 : ℚ),
         se.1.2 + (se.2.2 - se.1.2) * (1 : ℚ))) = b := by
  intro a
  induction a with
  | nil =>
    intro b h
    cases b with
    | nil => simp
    | cons y ys => simp at h
  | cons x xs ih =>
    intro b h
    cases b with
    | nil => simp at h
    | cons y ys =>
      simp only [List.zip_cons_cons, List.map_cons]
      rw [ih ys (by simpa using h)]
      refine congrArg (· :: ys) (Prod.ext ?_ ?_) <;> (simp only; ring)

/-- The greedy anchor loop pairs each short point, in order, with a
claimed original index, and the claimed indices together with the
leftover pool indices are a permutation of the initial pool indices. -/
theorem greedy_static_spec :
    ∀ (st : List Point) (pool statics pool' : List (ℕ × Point)),
      greedy_static st pool = some (statics, pool') →
      statics.map Prod.snd = st ∧
      (statics.map Prod.fst ++ pool'.map Prod.fst).Perm
        (pool.map Prod.fst) := by
  intro st
  induction st with
  | nil =>
    intro pool statics pool' h
    simp only [greedy_static, Option.some.injEq, Prod.mk.injEq] at h
    obtain ⟨h1, h2⟩ := h
    subst h1
    subst h2
    simp
  | cons p rest ih =>
    intro pool statics pool' h
    simp only [greedy_static] at h
    cases hc : closest_point p (pool.map Prod.snd) with
    | none =>
      simp only [hc] at h
      exact Option.noConfusion h
    | some ip =>
      obtain ⟨i, pt⟩ := ip
      simp only [hc] at h
      cases hg : greedy_static rest (pool.eraseIdx i) with
      | none =>
        simp only [hg] at h
        exact Option.noConfusion h
      | some sp2 =>
        obtain ⟨statics2, pool2⟩ := sp2
        simp only [hg, Option.some.injEq, Prod.mk.injEq] at h
        obtain ⟨h1, h2⟩ := h
        subst h2
        subst h1
        have hi : i < pool.length := by
          have := (mem_enum_getD ((0, 0) : Point)
            (min_by_val_mem hc)).1
          simpa using this
        obtain ⟨ihsnd, ihperm⟩ := ih (pool.eraseIdx i) statics2 pool2 hg
        constructor
        · simp [ihsnd]
        · simp only [List.map_cons, List.cons_append]
          refine (ihperm.cons _).trans ?_
          rw [map_eraseIdx Prod.fst pool i]
          have hgd : (pool.getD i (0, ((0 : ℚ), (0 : ℚ)))).1 =
              (pool.map Prod.fst).getD i 0 :=
            (getD_map_of_lt Prod.fst pool i hi 0 _).symm
          rw [hgd]
          exact getD_cons_eraseIdx_perm 0 (pool.map Prod.fst) i
            (by simpa using hi)

/-- The greedy anchor loop succeeds whenever the pool is at least as
large as the short polygon. -/
theorem greedy_static_total :
    ∀ (st : List Point) (pool : List (ℕ × Point)),
      st.length ≤ pool.length →
      ∃ statics pool', greedy_static st pool = some (statics, pool') := by
  intro st
  induction st with
  | nil => intro pool _; exact ⟨[], pool, rfl⟩
  | cons p rest ih =>
    intro pool h
    cases pool with
    | nil => simp at h
    | cons q qs =>
      obtain ⟨ip, hip⟩ : ∃ ip,
          closest_point p ((q :: qs).map Prod.snd) = some ip := ⟨_, rfl⟩
      obtain ⟨i, pt⟩ := ip
      have hi : i < (q :: qs).length := by
        have := (mem_enum_getD ((0, 0) : Point)
          (min_by_val_mem hip)).1
        simpa using this
      obtain ⟨st2, pl2, h2⟩ := ih ((q :: qs).eraseIdx i) (by
        have := List.length_eraseIdx_of_lt hi
        simp only [List.length_cons] at h this ⊢
        omega)
      refine ⟨(((q :: qs).getD i (0, ((0 : ℚ), (0 : ℚ)))).1, p) :: st2,
        pl2, ?_⟩
      simp only [greedy_static, hip, h2]

/-- Each step of the assignment loop appends one projected point to the
bucket of one edge: bucket lengths are preserved, the original longer
indices in the flattened buckets are a permutation of the distributed
indices plus those already present, and every new bucket entry lies on
that bucket's edge segment. -/
theorem assign_segments_spec (pairs : List (Point × Point)) :
    ∀ (rem : List (ℕ × Point)) (segs segs' : List (List (ℕ × Point))),
      assign_segments pairs rem segs = some segs' →
      segs'.length = segs.length ∧
      (segs.length = pairs.length →
        ((segs'.flatten).map Prod.fst).Perm
          (rem.map Prod.fst ++ (segs.flatten).map Prod.fst)) ∧
      (∀ i x, x ∈ segs'.getD i [] → x ∈ segs.getD i [] ∨
        ∃ t : ℚ, 0 ≤ t ∧ t ≤ 1 ∧
          x.2 = lerp_point (pairs.getD i ((0, 0), (0, 0))).1
            (pairs.getD i ((0, 0), (0, 0))).2 t) := by
  intro rem
  induction rem with
  | nil =>
    intro segs segs' h
    simp only [assign_segments, Option.some.injEq] at h
    subst h
    exact ⟨rfl, fun _ => by simp, fun i x hx => Or.inl hx⟩
  | cons hd rest ih =>
    intro segs segs' h
    obtain ⟨li, pt⟩ := hd
    simp only [assign_segments] at h
    cases hm : min_by_val (fun x => x.2.2)
        ((pairs.map fun ab => cast_to_line ab.1 ab.2 pt).enum) with
    | none =>
      simp only [hm] at h
      exact Option.noConfusion h
    | some ic =>
      obtain ⟨i0, c⟩ := ic
      simp only [hm] at h
      have hmem := mem_enum_getD (((0, 0), 0) : Point × ℚ)
        (min_by_val_mem hm)
      have hi0 : i0 < pairs.length := by
        have := hmem.1
        simpa using this
      have hc : c = cast_to_line (pairs.getD i0 ((0, 0), (0, 0))).1
          (pairs.getD i0 ((0, 0), (0, 0))).2 pt := by
        have h2 := hmem.2
        rw [getD_map_of_lt _ pairs i0 hi0 _ ((0, 0), (0, 0))] at h2
        exact h2.symm
      obtain ⟨ihlen, ihperm, ihmem⟩ :=
        ih (segs.set i0 (segs.getD i0 [] ++ [(li, c.1)])) segs' h
      refine ⟨by simpa using ihlen, ?_, ?_⟩
      · intro hlenpairs
        have hi0s : i0 < segs.length := by rw [hlenpairs]; exact hi0
        have h1 := ihperm (by simpa using hlenpairs)
        refine h1.trans ?_
        have h2 := (flatten_set_append_perm segs i0 (li, c.1)
          hi0s).map Prod.fst
        simp only [List.map_cons] at h2
        refine (h2.append_left (rest.map Prod.fst)).trans ?_
        simp only [List.map_cons, List.cons_append]
        exact List.perm_middle
      · intro i x hx
        rcases ihmem i x hx with hold | hnew
        · by_cases hii : i = i0
          · rw [hii] at hold ⊢
            by_cases his : i0 < segs.length
            · rw [List.getD_eq_getElem?_getD,
                List.getElem?_set_self his, Option.getD_some] at hold
              rcases List.mem_append.mp hold with hl | hr
              · exact Or.inl hl
              · right
                obtain ⟨t, ht0, ht1, hcast⟩ := cast_to_line_mem_segment
                  (pairs.getD i0 ((0, 0), (0, 0))).1
                  (pairs.getD i0 ((0, 0), (0, 0))).2 pt
                refine ⟨t, ht0, ht1, ?_⟩
                have hx0 : x = (li, c.1) := by simpa using hr
                rw [hx0]
                show c.1 = _
                rw [hc]
                exact hcast
            · rw [List.getD_eq_getElem?_getD, List.getElem?_eq_none
                (by simp only [List.length_set]; omega)] at hold
              simp at hold
          · rw [List.getD_eq_getElem?_getD,
              List.getElem?_set_ne (Ne.symm hii),
              ← List.getD_eq_getElem?_getD] at hold
            exact Or.inl hold
        · exact Or.inr hnew

/-- The assignment loop succeeds whenever there is at least one edge. -/
theorem assign_segments_total (pairs : List (Point × Point))
    (hne : pairs ≠ []) :
    ∀ (rem : List (ℕ × Point)) (segs : List (List (ℕ × Point))),
      ∃ segs', assign_segments pairs rem segs = some segs' := by
  intro rem
  induction rem with
  | nil => intro segs; exact ⟨segs, rfl⟩
  | cons hd rest ih =>
    intro segs
    obtain ⟨li, pt⟩ := hd
    obtain ⟨ic, hic⟩ : ∃ ic, min_by_val (fun x => x.2.2)
        ((pairs.map fun ab => cast_to_line ab.1 ab.2 pt).enum) =
          some ic := by
      cases pairs with
      | nil => exact absurd rfl hne
      | cons a t => exact ⟨_, rfl⟩
    obtain ⟨i0, c⟩ := ic
    obtain ⟨segs', h⟩ :=
      ih (segs.set i0 (segs.getD i0 [] ++ [(li, c.1)]))
    refine ⟨segs', ?_⟩
    simp only [assign_segments, hic, h]

/-- Interpolating at parameter 0 returns the segment's start point. -/
theorem lerp_point_zero (a b : Point) : lerp_point a b 0 = a := by
  simp only [lerp_point]
  refine Prod.ext ?_ ?_ <;> (simp only; ring)

/-- `getD` on a zip of sufficiently long lists is the pair of `getD`s. -/
theorem getD_zip_of_lt {α β : Type} :
    ∀ (as : List α) (bs : List β) (i : ℕ), i < as.length →
      i < bs.length → ∀ (da : α) (db : β),
      (as.zip bs).getD i (da, db) = (as.getD i da, bs.getD i db) := by
  intro as
  induction as with
  | nil => intro bs i h; simp at h
  | cons a as ih =>
    intro bs i h1 h2 da db
    cases bs with
    | nil => simp at h2
    | cons b bs =>
      cases i with
      | zero => simp
      | succ i =>
        simp only [List.zip_cons_cons, List.getD_cons_succ]
        exact ih bs i (by simpa using h1) (by simpa using h2) da db

/-- Every bucket of a replicated empty-bucket list is empty. -/
theorem getD_replicate_nil {α : Type} (n i : ℕ) :
    (List.replicate n ([] : List α)).getD i [] = [] := by
  rw [List.getD_eq_getElem?_getD, List.getElem?_replicate]
  split <;> rfl

/-- `getD` of `range` at an in-range index is that index. -/
theorem getD_range_of_lt (n i : ℕ) (h : i < n) :
    (List.range n).getD i 0 = i := by
  rw [List.getD_eq_getElem?_getD,
    List.getElem?_eq_getElem (by simpa using h)]
  simp

/-- The computation of `create_missing_points` once both loops are known
to succeed. -/
theorem create_missing_points_eq (sp ep : List Point)
    (statics remaining : List (ℕ × Point))
    (segs : List (List (ℕ × Point)))
    (hg : greedy_static
      (translate_points sp (-(top_left sp).1) (-(top_left sp).2))
      ((translate_points ep (-(top_left ep).1) (-(top_left ep).2)).enum) =
        some (statics, remaining))
    (ha : assign_segments
      ((List.range (translate_points sp (-(top_left sp).1)
          (-(top_left sp).2)).length).map fun i =>
        ((translate_points sp (-(top_left sp).1)
            (-(top_left sp).2)).getD i (0, 0),
         (translate_points sp (-(top_left sp).1)
            (-(top_left sp).2)).getD
           ((i + 1) % (translate_points sp (-(top_left sp).1)
              (-(top_left sp).2)).length) (0, 0)))
      remaining
      (List.replicate (translate_points sp (-(top_left sp).1)
        (-(top_left sp).2)).length []) = some segs) :
    create_missing_points sp ep =
      some (translate_points
          ((((statics.zip segs).map fun p => p.1 :: p.2).flatten).map
            Prod.snd) (top_left sp).1 (top_left sp).2,
        (((statics.zip segs).map fun p => p.1 :: p.2).flatten).map
          fun ip => ep.getD ip.1 (0, 0)) := by
  simp only [create_missing_points, hg, ha]

/-- Translating back the `getD` of a translated-away list gives the
original entry. -/
theorem translate_points_getD_cancel (ps : List Point) (x y : ℚ) (j : ℕ)
    (h : j < ps.length) :
    translate_point ((translate_points ps (-x) (-y)).getD j (0, 0)) x y =
      ps.getD j (0, 0) := by
  rw [show translate_points ps (-x) (-y) =
    ps.map (fun p => translate_point p (-x) (-y)) from rfl]
  rw [getD_map_of_lt _ ps j h _ (0, 0)]
  exact translate_point_cancel _ _ _

/-- Full behaviour of `create_missing_points` on a nonempty short polygon
and an at-least-as-long longer polygon: it succeeds; both outputs have
the longer polygon's length; the longer output is a permutation of the
longer polygon's points; and the short output decomposes into one block
per short edge, walked in edge order, all of whose points lie on that
edge of the short polygon. -/
theorem create_missing_points_spec (sp ep : List Point)
    (h0 : sp ≠ []) (hle : sp.length ≤ ep.length) :
    ∃ (s' l' : List Point) (blocks : List (List Point)),
      create_missing_points sp ep = some (s', l') ∧
      s'.length = ep.length ∧ l'.length = ep.length ∧
      l'.Perm ep ∧
      s' = blocks.flatten ∧ blocks.length = sp.length ∧
      (∀ i, ∀ q ∈ blocks.getD i [], on_edge sp i q) := by
  obtain ⟨statics, remaining, hg⟩ :=
    greedy_static_total
      (translate_points sp (-(top_left sp).1) (-(top_left sp).2))
      ((translate_points ep (-(top_left ep).1) (-(top_left ep).2)).enum)
      (by
        simp only [translate_points, List.length_map,
          List.enum_eq_enumFrom, List.enumFrom_length]
        exact hle)
  obtain ⟨segs, ha⟩ :=
    assign_segments_total
      ((List.range (translate_points sp (-(top_left sp).1)
          (-(top_left sp).2)).length).map fun i =>
        ((translate_points sp (-(top_left sp).1)
            (-(top_left sp).2)).getD i (0, 0),
         (translate_points sp (-(top_left sp).1)
            (-(top_left sp).2)).getD
           ((i + 1) % (translate_points sp (-(top_left sp).1)
              (-(top_left sp).2)).length) (0, 0)))
      (by
        simp only [ne_eq, List.map_eq_nil_iff, List.range_eq_nil,
          translate_points, List.length_map, List.length_eq_zero]
        exact h0)
      remaining
      (List.replicate (translate_points sp (-(top_left sp).1)
        (-(top_left sp).2)).length [])
  have hcreate := create_missing_points_eq sp ep statics remaining segs
    hg ha
  set sf := top_left sp with hsfdef
  set st := translate_points sp (-sf.1) (-sf.2) with hstdef
  set ltl := (translate_points ep (-(top_left ep).1)
    (-(top_left ep).2)).enum with hltdef
  have hstlen : st.length = sp.length := by
    rw [hstdef]
    simp [translate_points]
  have hltlen : ltl.length = ep.length := by
    rw [hltdef]
    simp [List.enum_eq_enumFrom, List.enumFrom_length, translate_points]
  obtain ⟨hsnd, hperm⟩ := greedy_static_spec st ltl statics remaining hg
  have hstaticslen : statics.length = st.length := by
    rw [← hsnd]
    simp
  obtain ⟨halen, haperm, hamem⟩ :=
    assign_segments_spec _ remaining (List.replicate st.length []) segs
      ha
  have hsegslen : segs.length = st.length := by simpa using halen
  have hzipperm :
      ((((statics.zip segs).map fun p => p.1 :: p.2).flatten)).Perm
        (statics ++ segs.flatten) :=
    zip_cons_flatten_perm statics segs (by rw [hstaticslen, hsegslen])
  have hltfst : ltl.map Prod.fst = List.range ep.length := by
    rw [hltdef, List.enum_eq_enumFrom, List.enumFrom_map_fst,
      ← List.range_eq_range']
    simp [translate_points]
  have hfstperm :
      (((((statics.zip segs).map fun p => p.1 :: p.2).flatten)).map
        Prod.fst).Perm (List.range ep.length) := by
    refine (hzipperm.map Prod.fst).trans ?_
    rw [List.map_append]
    have h1 := haperm (by simp)
    refine (h1.append_left (statics.map Prod.fst)).trans ?_
    rw [flatten_replicate_nil]
    simp only [List.map_nil, List.append_nil]
    rw [← hltfst]
    exact hperm
  have hl'perm :
      (((((statics.zip segs).map fun p => p.1 :: p.2).flatten)).map
        fun ip => ep.getD ip.1 (0, 0)).Perm ep := by
    have hmm : ((((statics.zip segs).map fun p => p.1 :: p.2).flatten)).map
        (fun ip => ep.getD ip.1 (0, 0)) =
        (((((statics.zip segs).map fun p => p.1 :: p.2).flatten)).map
          Prod.fst).map (fun i => ep.getD i (0, 0)) := by
      rw [List.map_map]
      rfl
    rw [hmm]
    refine (hfstperm.map _).trans ?_
    rw [range_map_getD]
  have hptslen :
      (((statics.zip segs).map fun p => p.1 :: p.2).flatten).length =
        ep.length := by
    have h1 := hfstperm.length_eq
    rw [List.length_map, List.length_range] at h1
    exact h1
  refine ⟨_, _,
    (statics.zip segs).map fun p =>
      translate_point p.1.2 sf.1 sf.2 ::
        p.2.map fun ip => translate_point ip.2 sf.1 sf.2,
    hcreate, ?_, ?_, hl'perm, ?_, ?_, ?_⟩
  · simp only [translate_points, List.length_map]
    exact hptslen
  · exact hl'perm.length_eq
  · simp only [translate_points, List.map_flatten, List.map_map]
    congr 1
    apply List.map_congr_left
    intro p _
    simp [Function.comp]
  · rw [List.length_map, List.length_zip, hstaticslen, hsegslen,
      Nat.min_self, hstlen]
  · intro i q hq
    have hbl : ((statics.zip segs).map fun p =>
        translate_point p.1.2 sf.1 sf.2 ::
          p.2.map fun ip => translate_point ip.2 sf.1 sf.2).length =
        st.length := by
      rw [List.length_map, List.length_zip, hstaticslen, hsegslen,
        Nat.min_self]
    by_cases hi : i < st.length
    · have hizip : i < (statics.zip segs).length := by
        rw [List.length_zip, hstaticslen, hsegslen, Nat.min_self]
        exact hi
      rw [getD_map_of_lt _ (statics.zip segs) i hizip []
        ((0, ((0 : ℚ), (0 : ℚ))), []),
        getD_zip_of_lt statics segs i (by rw [hstaticslen]; exact hi)
          (by rw [hsegslen]; exact hi)] at hq
      have hsp_getD :
          translate_point (st.getD i ((0 : ℚ), (0 : ℚ))) sf.1 sf.2 =
            sp.getD i (0, 0) := by
        rw [hstdef]
        exact translate_points_getD_cancel sp sf.1 sf.2 i
          (by rw [← hstlen]; exact hi)
      rcases List.mem_cons.mp hq with hhead | htail
      · refine ⟨0, le_refl 0, zero_le_one, ?_⟩
        rw [hhead]
        have hstat2 : (statics.getD i (0, ((0 : ℚ), (0 : ℚ)))).2 =
            st.getD i (0, 0) := by
          rw [← hsnd, getD_map_of_lt Prod.snd statics i
            (by rw [hstaticslen]; exact hi) (0, 0)
            (0, ((0 : ℚ), (0 : ℚ)))]
        rw [hstat2, hsp_getD, lerp_point_zero]
      · obtain ⟨x, hxmem, hxq⟩ := List.mem_map.mp htail
        rcases hamem i x hxmem with hinit | ⟨t, ht0, ht1, hlerp⟩
        · rw [getD_replicate_nil] at hinit
          cases hinit
        · have hpair : ((List.range st.length).map fun j =>
              (st.getD j ((0 : ℚ), (0 : ℚ)),
               st.getD ((j + 1) % st.length) ((0 : ℚ), (0 : ℚ)))).getD i
                ((0, 0), (0, 0)) =
              (st.getD i (0, 0), st.getD ((i + 1) % st.length) (0, 0)) := by
            rw [getD_map_of_lt _ (List.range st.length) i
              (by simpa using hi) _ 0, getD_range_of_lt _ _ hi]
          rw [hpair] at hlerp
          have hsp_getD2 :
              translate_point (st.getD ((i + 1) % st.length)
                ((0 : ℚ), (0 : ℚ))) sf.1 sf.2 =
                sp.getD ((i + 1) % sp.length) (0, 0) := by
            rw [hstlen, hstdef]
            exact translate_points_getD_cancel sp sf.1 sf.2 _
              (Nat.mod_lt _ (List.length_pos.mpr h0))
          refine ⟨t, ht0, ht1, ?_⟩
          rw [← hxq, hlerp, translate_lerp, hsp_getD, hsp_getD2]
    · rw [List.getD_eq_getElem?_getD, List.getElem?_eq_none
        (by rw [hbl]; omega)] at hq
      cases hq

/-- C5: for every pair of non-empty input polygons with m ≤ n points,
`PolygonMorph::new` succeeds and produces two point sequences
(`start_points`, `end_points`) each of length exactly n; in particular
the two sequences always have equal length. -/
theorem C5_correspondence_cardinality (sp ep : List Point)
    (h0 : sp ≠ []) (hle : sp.length ≤ ep.length) :
    ∃ m : PolygonMorph, polygon_morph_new sp ep = some m ∧
      m.start_points.length = ep.length ∧
      m.end_points.length = ep.length := by
  rcases Nat.lt_or_ge sp.length ep.length with hlt | hge
  · obtain ⟨s', l', blocks, hc, hs, hl, _, _, _, _⟩ :=
      create_missing_points_spec sp ep h0 hle
    refine ⟨⟨s', l'⟩, ?_, hs, hl⟩
    simp only [polygon_morph_new,
      show compare sp.length ep.length = Ordering.lt from
        Nat.compare_eq_lt.mpr hlt, hc]
  · have heq : sp.length = ep.length := le_antisymm hle hge
    refine ⟨⟨sp, ep⟩, ?_, heq, rfl⟩
    simp only [polygon_morph_new,
      show compare sp.length ep.length = Ordering.eq from
        Nat.compare_eq_eq.mpr heq]

/-- C5 witness: the 3-point triangle and a 4-point polygon produce a
morph whose two sequences both have length 4. -/
theorem C5_correspondence_cardinality_witness :
    ∃ m : PolygonMorph,
      polygon_morph_new [((0 : ℚ), (0 : ℚ)), (10, 0), (0, 10)]
        [(10, 0), (0, 0), (0, 10), (5, 5)] = some m ∧
      m.start_points.length =
        ([((10 : ℚ), (0 : ℚ)), (0, 0), (0, 10), (5, 5)] :
          List Point).length ∧
      m.end_points.length =
        ([((10 : ℚ), (0 : ℚ)), (0, 0), (0, 10), (5, 5)] :
          List Point).length :=
  C5_correspondence_cardinality _ _ (by decide) (by decide)

/-- C4 (amended): for every correspondence built from two non-empty
polygons with m ≤ n points, interpolating at progress 0 reproduces the
shorter polygon's shape up to the translate/untranslate round trip — the
output decomposes into one block per short-polygon edge, in edge order,
every point of which lies on that edge of the shorter polygon — and
interpolating at progress 1 yields the stored end sequence, which is a
permutation of the longer polygon's point sequence (the greedy
correspondence reorders the longer polygon's points, so equality of
sequences fails; see the counterexample). -/
theorem C4_morph_endpoints (sp ep : List Point) (h0 : sp ≠ [])
    (hle : sp.length ≤ ep.length) :
    ∃ (m : PolygonMorph) (blocks : List (List Point)),
      polygon_morph_new sp ep = some m ∧
      morph_animate m 0 = blocks.flatten ∧
      blocks.length = sp.length ∧
      (∀ i, ∀ q ∈ blocks.getD i [], on_edge sp i q) ∧
      morph_animate m 1 = m.end_points ∧
      m.end_points.Perm ep := by
  rcases Nat.lt_or_ge sp.length ep.length with hlt | hge
  · obtain ⟨s', l', blocks, hc, hs, hl, hperm, hblocks, hblen, hedge⟩ :=
      create_missing_points_spec sp ep h0 hle
    refine ⟨⟨s', l'⟩, blocks, ?_, ?_, hblen, hedge, ?_, hperm⟩
    · simp only [polygon_morph_new,
        show compare sp.length ep.length = Ordering.lt from
          Nat.compare_eq_lt.mpr hlt, hc]
    · simp only [morph_animate]
      rw [zip_lerp_zero s' l' (by rw [hs, hl])]
      exact hblocks
    · simp only [morph_animate]
      exact zip_lerp_one s' l' (by rw [hs, hl])
  · have heq : sp.length = ep.length := le_antisymm hle hge
    refine ⟨⟨sp, ep⟩, sp.map (fun q => [q]), ?_, ?_, by simp, ?_, ?_,
      List.Perm.refl ep⟩
    · simp only [polygon_morph_new,
        show compare sp.length ep.length = Ordering.eq from
          Nat.compare_eq_eq.mpr heq]
    · simp only [morph_animate]
      rw [zip_lerp_zero sp ep heq, flatten_map_singleton]
    · intro i q hq
      by_cases hi : i < sp.length
      · rw [getD_map_of_lt (fun q => [q]) sp i hi []
          ((0, 0) : Point)] at hq
        have hq' : q = sp.getD i (0, 0) := by simpa using hq
        exact ⟨0, le_refl 0, zero_le_one, by rw [hq', lerp_point_zero]⟩
      · rw [List.getD_eq_getElem?_getD, List.getElem?_eq_none
          (by simp only [List.length_map]; omega)] at hq
        cases hq
    · simp only [morph_animate]
      exact zip_lerp_one sp ep heq

/-- C4 witness: morphing the triangle into the 4-point polygon, progress
0 walks the triangle's edges (blocks on the boundary in edge order) and
progress 1 yields a permutation of the longer polygon's points. -/
theorem C4_morph_endpoints_witness :
    ∃ (m : PolygonMorph) (blocks : List (List Point)),
      polygon_morph_new [((0 : ℚ), (0 : ℚ)), (10, 0), (0, 10)]
        [(10, 0), (0, 0), (0, 10), (5, 5)] = some m ∧
      morph_animate m 0 = blocks.flatten ∧
      blocks.length =
        ([((0 : ℚ), (0 : ℚ)), (10, 0), (0, 10)] : List Point).length ∧
      (∀ i, ∀ q ∈ blocks.getD i [],
        on_edge [((0 : ℚ), (0 : ℚ)), (10, 0), (0, 10)] i q) ∧
      morph_animate m 1 = m.end_points ∧
      m.end_points.Perm [(10, 0), (0, 0), (0, 10), (5, 5)] :=
  C4_morph_endpoints _ _ (by decide) (by decide)

end Aniy
